import Mathlib

/-!
Verification development for the company-import backend (src/index.js).

The embedding models records as association lists from string field names to
loosely-typed scalar values, the persisted store as a list of records, and the
reconciliation engine `importCompanies` as a fold of a per-record decision
procedure over the input sequence.  Store operations (lookup, insert, update)
follow the external-store contract: `findOne` returns the first record whose
`email` field equals the probe value, `create` appends, `updateOne` with a
`$set` document rewrites the named fields of the first matching record.

A single interpreter `importE` drives the run; it is parametrized by an
optional index of a failing store operation (`none` = the pure, fault-free
run), which models an awaited store promise rejecting mid-run.
-/

namespace TaskBackend

/-- A loosely-typed scalar cell value: string, number, or null/undefined. -/
inductive Value where
  | str (s : String)
  | num (n : Int)
  | null
deriving DecidableEq

/-- JavaScript loose scalar truthiness: the empty string, the number zero and
null/undefined are falsy; every other scalar is truthy. -/
def truthy : Value → Bool
  | .str s => s ≠ ""
  | .num n => n ≠ 0
  | .null => false

/-- A record / field map: an association list from field names to values.
JavaScript objects have no duplicate keys; `WFRecord` states that. -/
abbrev Record := List (String × Value)

/-- Field access `r[key]`: the value of the first binding of `key`, if any. -/
def getF : Record → String → Option Value
  | [], _ => none
  | (k, v) :: rest, key => if k = key then some v else getF rest key

/-- Truthiness of a field access: an absent field (undefined) is falsy. -/
def truthyO : Option Value → Bool
  | none => false
  | some v => truthy v

/-- The keys of a record, in binding order. -/
def keysOf (r : Record) : List String := r.map Prod.fst

/-- A well-formed record has no duplicate keys (as a JavaScript object). -/
def WFRecord (r : Record) : Prop := (keysOf r).Nodup

/-- Set one field: rewrite the first binding of `k`, or append a new one. -/
def setField : Record → String → Value → Record
  | [], k, v => [(k, v)]
  | (k', v') :: rest, k, v =>
      if k' = k then (k, v) :: rest else (k', v') :: setField rest k v

/-- Apply a `$set` document: set each of its fields in order. -/
def setFields (r : Record) (u : List (String × Value)) : Record :=
  u.foldl (fun acc kv => setField acc kv.1 kv.2) r

/-- `Company.findOne({ email: e })`: first stored record whose email is `e`. -/
def findOne : List Record → Value → Option Record
  | [], _ => none
  | r :: rest, e => if getF r "email" = some e then some r else findOne rest e

/-- `Company.updateOne({ email: e }, { $set: ... })`: apply `f` to the first
stored record whose email is `e`; leave everything else unchanged. -/
def updateFirst : List Record → Value → (Record → Record) → List Record
  | [], _, _ => []
  | r :: rest, e, f =>
      if getF r "email" = some e then f r :: rest else r :: updateFirst rest e f

/-- `Company.deleteOne({ email: e })`: remove the first matching record. -/
def deleteFirst : List Record → Value → List Record
  | [], _ => []
  | r :: rest, e => if getF r "email" = some e then rest else r :: deleteFirst rest e

/-- The per-record mutation decision the engine's switch produces. -/
inductive Decision where
  | noEmailSkip
  | lookupSkip
  | insert (r : Record)
  | update (e : Value) (u : List (String × Value))
  | unknownMode
deriving DecidableEq

/-- The merge-fill `$set` document: the loop
`for key in company: if (!existingCompany[key] && company[key]) update[key] = company[key]`. -/
def mergeFill (existingCompany company : Record) : List (String × Value) :=
  company.filter fun kv => !truthyO (getF existingCompany kv.1) && truthy kv.2

/-- The five-way `switch (importMode)` of `importCompanies`, given the lookup
result.  A mode string outside the five cases matches no case and falls
through: no mutation and no counter update. -/
def reconcileMode (importMode : String) (existingCompany : Option Record)
    (company : Record) (e : Value) : Decision :=
  match importMode with
  | "create_new" =>
      match existingCompany with
      | none => .insert company
      | some _ => .lookupSkip
  | "create_update_no_overwrite" =>
      match existingCompany with
      | none => .insert company
      | some ex =>
          let u := mergeFill ex company
          if u.length > 0 then .update e u else .lookupSkip
  | "create_update_overwrite" =>
      match existingCompany with
      | none => .insert company
      | some _ => .update e company
  | "update_no_overwrite" =>
      match existingCompany with
      | none => .lookupSkip
      | some ex =>
          let u := mergeFill ex company
          if u.length > 0 then .update e u else .lookupSkip
  | "update_overwrite" =>
      match existingCompany with
      | none => .lookupSkip
      | some _ => .update e company
  | _ => .unknownMode

/-- The per-record body of the import loop: `if (!company.email) skip` and
otherwise look up the existing record and run the mode switch. -/
def reconcile (store : List Record) (importMode : String) (company : Record) :
    Decision :=
  match getF company "email" with
  | none => .noEmailSkip
  | some e =>
      if truthy e then reconcileMode importMode (findOne store e) company e
      else .noEmailSkip

/-- The store mutation a decision performs. -/
def applyDecision (store : List Record) : Decision → List Record
  | .insert r => store ++ [r]
  | .update e u => updateFirst store e (fun r => setFields r u)
  | _ => store

/-- The outcome counters `{inserted, updated, skipped}` of one run. -/
structure Counters where
  inserted : Nat
  updated : Nat
  skipped : Nat
deriving DecidableEq

/-- The counter update a decision performs (an unmatched mode updates none). -/
def tallyD (acc : Counters) : Decision → Counters
  | .noEmailSkip => { acc with skipped := acc.skipped + 1 }
  | .lookupSkip => { acc with skipped := acc.skipped + 1 }
  | .insert _ => { acc with inserted := acc.inserted + 1 }
  | .update _ _ => { acc with updated := acc.updated + 1 }
  | .unknownMode => acc

/-- How many store round-trips a decision costs: none without an email; the
lookup alone for skips and unmatched modes; lookup plus one write otherwise. -/
def storeOpsOf : Decision → Nat
  | .noEmailSkip => 0
  | .lookupSkip => 1
  | .unknownMode => 1
  | .insert _ => 2
  | .update _ _ => 2

/-- The per-record outcome named by the spec (an unmatched mode has none). -/
inductive Outcome where
  | inserted
  | updated
  | skipped
deriving DecidableEq

/-- Which outcome a decision is counted as. -/
def outcomeOf : Decision → Option Outcome
  | .noEmailSkip => some .skipped
  | .lookupSkip => some .skipped
  | .insert _ => some .inserted
  | .update _ _ => some .updated
  | .unknownMode => none

/-- The import loop.  `failAt = some n` makes the `n`-th store operation
(0-indexed across the run) reject, aborting the run with a store error
(result `none`) and leaving the store as already mutated; `failAt = none` is
the fault-free run.  Returns the result, the final store, and the number of
store operations performed. -/
def importE (failAt : Option Nat) (store : List Record)
    (companies : List Record) (importMode : String) (acc : Counters)
    (opc : Nat) : Option Counters × List Record × Nat :=
  match companies with
  | [] => (some acc, store, opc)
  | company :: rest =>
      match reconcile store importMode company with
      | .noEmailSkip =>
          importE failAt store rest importMode (tallyD acc .noEmailSkip) opc
      | .lookupSkip =>
          if failAt = some opc then (none, store, opc)
          else importE failAt store rest importMode (tallyD acc .lookupSkip) (opc + 1)
      | .unknownMode =>
          if failAt = some opc then (none, store, opc)
          else importE failAt store rest importMode acc (opc + 1)
      | .insert r =>
          if failAt = some opc then (none, store, opc)
          else if failAt = some (opc + 1) then (none, store, opc + 1)
          else importE failAt (store ++ [r]) rest importMode
            (tallyD acc (.insert r)) (opc + 2)
      | .update e u =>
          if failAt = some opc then (none, store, opc)
          else if failAt = some (opc + 1) then (none, store, opc + 1)
          else importE failAt (updateFirst store e fun r => setFields r u) rest
            importMode (tallyD acc (.update e u)) (opc + 2)

/-- `importCompanies(companies, importMode)` on a given store: the fault-free
run's counters and final store. -/
def importCompanies (store : List Record) (companies : List Record)
    (importMode : String) : Counters × List Record :=
  match importE none store companies importMode ⟨0, 0, 0⟩ 0 with
  | (some c, s, _) => (c, s)
  | (none, s, _) => (⟨0, 0, 0⟩, s)

/-- The five recognized import modes, as an enumerated type. -/
inductive Mode where
  | create_new
  | create_update_no_overwrite
  | create_update_overwrite
  | update_no_overwrite
  | update_overwrite
deriving DecidableEq

/-- The mode strings the switch recognizes. -/
def modeStr : Mode → String
  | .create_new => "create_new"
  | .create_update_no_overwrite => "create_update_no_overwrite"
  | .create_update_overwrite => "create_update_overwrite"
  | .update_no_overwrite => "update_no_overwrite"
  | .update_overwrite => "update_overwrite"

/-- The request to the import endpoint: the (already parsed) uploaded file,
if any, and the `importMode` form field, if present. -/
structure ImportRequest where
  file : Option (List Record)
  importMode : Option String

/-- The endpoint's response. -/
inductive ImportResponse where
  | error (message : String)
  | success (inserted updated skipped : Nat)
deriving DecidableEq

/-- Whether a response reports a failure. -/
def isError : ImportResponse → Bool
  | .error _ => true
  | .success _ _ _ => false

/-- The `POST /api/companies/import` handler: reject a missing file, reject a
missing or empty (falsy) mode, otherwise run the import and report the
counters. -/
def handleImport (store : List Record) (req : ImportRequest) :
    ImportResponse × List Record :=
  match req.file with
  | none => (.error "No file uploaded", store)
  | some companies =>
      match req.importMode with
      | none => (.error "Import mode is required", store)
      | some m =>
          if m = "" then (.error "Import mode is required", store)
          else
            let r := importCompanies store companies m
            (.success r.1.inserted r.1.updated r.1.skipped, r.2)

/-- `DELETE /api/companies/:email`: delete the matching record if present;
report whether one was deleted (`false` = 404 not found). -/
def deleteByEmail (store : List Record) (email : String) : Bool × List Record :=
  match findOne store (.str email) with
  | none => (false, store)
  | some _ => (true, deleteFirst store (.str email))

/-- One exposed mutating-or-reading operation of the service. -/
inductive Op where
  | importOp (companies : List Record) (importMode : String)
  | deleteOp (email : String)
  | listOp

/-- The store after one operation (`GET /api/companies` reads only). -/
def applyOp (store : List Record) : Op → List Record
  | .importOp companies importMode => (importCompanies store companies importMode).2
  | .deleteOp email => (deleteByEmail store email).2
  | .listOp => store

/-- The store after a sequence of operations. -/
def applyOps (store : List Record) (ops : List Op) : List Record :=
  ops.foldl applyOp store

/-- The identity key of a stored record: its email when non-empty (truthy). -/
def emailKey (r : Record) : Option Value :=
  match getF r "email" with
  | some v => if truthy v then some v else none
  | none => none

/-- The non-empty email values of the store, in store order. -/
def emailsOf (store : List Record) : List Value := store.filterMap emailKey

/-- The identity invariant: no two persisted records share a non-empty email. -/
def EmailUnique (store : List Record) : Prop := (emailsOf store).Nodup

instance (store : List Record) : Decidable (EmailUnique store) :=
  inferInstanceAs (Decidable (emailsOf store).Nodup)

instance (r : Record) : Decidable (WFRecord r) :=
  inferInstanceAs (Decidable (keysOf r).Nodup)

/-- Well-formedness of an operation: imported records are JavaScript objects,
so they have no duplicate keys. -/
def WFOp : Op → Prop
  | .importOp companies _ => ∀ c ∈ companies, WFRecord c
  | .deleteOp _ => True
  | .listOp => True

/-- Sample persisted record: email present, empty name, truthy industry. -/
def exRecord : Record :=
  [("email", .str "a@x.com"), ("name", .str ""), ("industry", .str "Tech")]

/-- Sample incoming record matching `exRecord` by email. -/
def incRecord : Record :=
  [("email", .str "a@x.com"), ("name", .str "A"), ("industry", .str "Retail")]

/-- Sample incoming record with a fresh email. -/
def incRecordB : Record := [("email", .str "b@x.com"), ("name", .str "B")]

/-- Sample record with no email field. -/
def noEmailRecord : Record := [("name", .str "C")]

/-! ### Basic lemmas on field access and update -/

theorem getF_eq_none_iff (r : Record) (k : String) :
    getF r k = none ↔ k ∉ keysOf r := by
  induction r with
  | nil => simp [getF, keysOf]
  | cons kv rest ih =>
      obtain ⟨k0, v0⟩ := kv
      by_cases h : k0 = k
      · subst h; simp [getF, keysOf]
      · simp [getF, keysOf, h, ih, Ne.symm h]

theorem getF_setField (r : Record) (k k' : String) (v : Value) :
    getF (setField r k v) k' = if k = k' then some v else getF r k' := by
  induction r with
  | nil => simp [setField, getF]
  | cons kv rest ih =>
      obtain ⟨k0, v0⟩ := kv
      by_cases h : k0 = k
      · subst h
        by_cases h' : k0 = k'
        · subst h'; simp [setField, getF]
        · simp [setField, getF, h']
      · simp only [setField, if_neg h, getF, ih]
        by_cases h' : k0 = k'
        · subst h'
          have hne : ¬(k = k0) := fun he => h he.symm
          simp [hne]
        · simp [h']

theorem setFields_cons (r : Record) (k : String) (v : Value)
    (u : List (String × Value)) :
    setFields r ((k, v) :: u) = setFields (setField r k v) u := rfl

theorem getF_setFields_not_mem (u : List (String × Value)) (r : Record)
    (k : String) (h : k ∉ u.map Prod.fst) :
    getF (setFields r u) k = getF r k := by
  induction u generalizing r with
  | nil => rfl
  | cons kv u' ih =>
      obtain ⟨k0, v0⟩ := kv
      simp only [List.map_cons, List.mem_cons] at h
      push_neg at h
      rw [setFields_cons, ih _ h.2, getF_setField]
      simp [Ne.symm h.1]

theorem getF_setFields_some (u : List (String × Value)) (r : Record)
    (k : String) (v : Value) (hn : (u.map Prod.fst).Nodup)
    (h : getF u k = some v) :
    getF (setFields r u) k = some v := by
  induction u generalizing r with
  | nil => simp [getF] at h
  | cons kv u' ih =>
      obtain ⟨k0, v0⟩ := kv
      simp only [List.map_cons, List.nodup_cons] at hn
      by_cases hk : k0 = k
      · subst hk
        simp [getF] at h
        subst h
        rw [setFields_cons, getF_setFields_not_mem _ _ _ hn.1, getF_setField,
          if_pos rfl]
      · simp only [getF, if_neg hk] at h
        rw [setFields_cons]
        exact ih (setField r k0 v0) hn.2 h

theorem getF_filter (p : String × Value → Bool) (r : Record) (k : String)
    (hr : WFRecord r) :
    getF (r.filter p) k =
      match getF r k with
      | some v => if p (k, v) then some v else none
      | none => none := by
  induction r with
  | nil => simp [getF]
  | cons kv rest ih =>
      obtain ⟨k0, v0⟩ := kv
      simp only [WFRecord, keysOf, List.map_cons, List.nodup_cons] at hr
      by_cases hk : k0 = k
      · subst hk
        by_cases hp : p (k0, v0)
        · simp [getF, List.filter_cons, hp]
        · simp only [List.filter_cons, if_neg hp]
          have : getF (List.filter p rest) k0 = none := by
            rw [getF_eq_none_iff]
            intro hmem
            exact hr.1 (by
              simp only [keysOf, List.mem_map] at hmem
              obtain ⟨x, hx, hxk⟩ := hmem
              exact List.mem_map.mpr ⟨x, List.mem_of_mem_filter hx, hxk⟩)
          simp [getF, this, hp]
      · by_cases hp : p (k0, v0) <;>
          simp [getF, List.filter_cons, hp, hk, ih hr.2]

/-! ### Lemmas on the store primitives -/

theorem findOne_eq_none_iff (store : List Record) (e : Value) :
    findOne store e = none ↔ ∀ r ∈ store, getF r "email" ≠ some e := by
  induction store with
  | nil => simp [findOne]
  | cons r rest ih =>
      by_cases h : getF r "email" = some e
      · simp [findOne, h]
      · simp [findOne, h, ih]

theorem findOne_email (store : List Record) (e : Value) (r : Record)
    (h : findOne store e = some r) : getF r "email" = some e := by
  induction store with
  | nil => simp [findOne] at h
  | cons r0 rest ih =>
      by_cases h0 : getF r0 "email" = some e
      · simp only [findOne, if_pos h0, Option.some.injEq] at h
        subst h; exact h0
      · simp only [findOne, if_neg h0] at h
        exact ih h

theorem findOne_updateFirst (store : List Record) (e : Value)
    (f : Record → Record) (ex : Record) (h : findOne store e = some ex)
    (hf : getF (f ex) "email" = some e) :
    findOne (updateFirst store e f) e = some (f ex) := by
  induction store with
  | nil => simp [findOne] at h
  | cons r0 rest ih =>
      by_cases h0 : getF r0 "email" = some e
      · simp only [findOne, if_pos h0, Option.some.injEq] at h
        subst h
        simp [updateFirst, h0, findOne, hf]
      · simp only [findOne, if_neg h0] at h
        simp only [updateFirst, if_neg h0, findOne, if_neg h0]
        exact ih h

theorem updateFirst_getElem (store : List Record) (e : Value)
    (f : Record → Record) (i : Nat) :
    (updateFirst store e f)[i]? = store[i]? ∨
      ∃ r, store[i]? = some r ∧ findOne store e = some r ∧
        (updateFirst store e f)[i]? = some (f r) := by
  induction store generalizing i with
  | nil => left; simp [updateFirst]
  | cons r0 rest ih =>
      by_cases h0 : getF r0 "email" = some e
      · cases i with
        | zero =>
            right
            exact ⟨r0, by simp, by simp [findOne, h0], by simp [updateFirst, h0]⟩
        | succ j => left; simp [updateFirst, h0]
      · cases i with
        | zero => left; simp [updateFirst, h0]
        | succ j =>
            rcases ih j with hcase | ⟨r, hr1, hr2, hr3⟩
            · left; simpa [updateFirst, h0] using hcase
            · right
              exact ⟨r, by simpa using hr1, by simpa [findOne, h0] using hr2,
                by simpa [updateFirst, h0] using hr3⟩

theorem updateFirst_length (store : List Record) (e : Value)
    (f : Record → Record) : (updateFirst store e f).length = store.length := by
  induction store with
  | nil => rfl
  | cons r0 rest ih =>
      by_cases h0 : getF r0 "email" = some e <;> simp [updateFirst, h0, ih]

theorem emailKey_of_email (r : Record) (e : Value)
    (h : getF r "email" = some e) (ht : truthy e = true) :
    emailKey r = some e := by
  simp [emailKey, h, ht]

theorem emailsOf_updateFirst (store : List Record) (e : Value)
    (f : Record → Record)
    (hf : ∀ r, getF r "email" = some e → emailKey (f r) = emailKey r) :
    emailsOf (updateFirst store e f) = emailsOf store := by
  induction store with
  | nil => rfl
  | cons r0 rest ih =>
      by_cases h0 : getF r0 "email" = some e
      · simp only [updateFirst, if_pos h0, emailsOf, List.filterMap_cons,
          hf r0 h0]
      · simp only [updateFirst, if_neg h0, emailsOf, List.filterMap_cons]
        simp only [emailsOf] at ih
        rw [ih]

theorem deleteFirst_sublist (store : List Record) (e : Value) :
    List.Sublist (deleteFirst store e) store := by
  induction store with
  | nil => simp [deleteFirst]
  | cons r0 rest ih =>
      by_cases h0 : getF r0 "email" = some e
      · simp only [deleteFirst, if_pos h0]
        exact List.sublist_cons_self r0 rest
      · simpa [deleteFirst, h0] using ih.cons₂ r0

/-! ### Lemmas on the merge-fill change set -/

theorem mem_keys_mergeFill (ex c : Record) (k : String)
    (h : k ∈ (mergeFill ex c).map Prod.fst) :
    truthyO (getF ex k) = false := by
  simp only [mergeFill, List.mem_map] at h
  obtain ⟨⟨k1, v1⟩, hmem, hk⟩ := h
  rw [List.mem_filter] at hmem
  have hcond := hmem.2
  simp only at hk
  subst hk
  simp only [Bool.and_eq_true, Bool.not_eq_true'] at hcond
  exact hcond.1

theorem keys_mergeFill_nodup (ex c : Record) (h : WFRecord c) :
    ((mergeFill ex c).map Prod.fst).Nodup :=
  h.sublist ((List.filter_sublist c).map Prod.fst)

theorem getF_mergeFill (ex c : Record) (k : String) (hwf : WFRecord c) :
    getF (mergeFill ex c) k =
      match getF c k with
      | some v => if !truthyO (getF ex k) && truthy v then some v else none
      | none => none := by
  rw [mergeFill, getF_filter _ _ _ hwf]

theorem getF_setFields_mergeFill (ex c : Record) (k : String)
    (hwf : WFRecord c) :
    getF (setFields ex (mergeFill ex c)) k =
      if truthyO (getF c k) && !truthyO (getF ex k) then getF c k
      else getF ex k := by
  cases hc : getF c k with
  | none =>
      have hm : getF (mergeFill ex c) k = none := by
        rw [getF_mergeFill _ _ _ hwf, hc]
      rw [getF_setFields_not_mem _ _ _ ((getF_eq_none_iff _ _).mp hm)]
      simp [hc, truthyO]
  | some v =>
      by_cases hp : (!truthyO (getF ex k) && truthy v) = true
      · have hm : getF (mergeFill ex c) k = some v := by
          rw [getF_mergeFill _ _ _ hwf, hc]
          simp [hp]
        rw [getF_setFields_some _ _ _ _ (keys_mergeFill_nodup ex c hwf) hm]
        have hcond : (truthyO (some v) && !truthyO (getF ex k)) = true := by
          rw [Bool.and_comm] at hp
          simpa [truthyO] using hp
        rw [if_pos hcond]
      · have hm : getF (mergeFill ex c) k = none := by
          rw [getF_mergeFill _ _ _ hwf, hc]
          simp [hp]
        rw [getF_setFields_not_mem _ _ _ ((getF_eq_none_iff _ _).mp hm)]
        have hcond : (truthyO (some v) && !truthyO (getF ex k)) = false := by
          rw [Bool.and_comm] at hp
          simpa [truthyO] using hp
        rw [if_neg (by simp [hcond])]

/-! ### Lemmas on the reconciliation engine -/

theorem reconcile_no_email (store : List Record) (importMode : String)
    (company : Record) (he : truthyO (getF company "email") = false) :
    reconcile store importMode company = .noEmailSkip := by
  unfold reconcile
  cases hg : getF company "email" with
  | none => rfl
  | some e =>
      rw [hg] at he
      simp only [truthyO] at he
      simp [he]

end TaskBackend

namespace TaskBackend

/-- C1: for a record with a non-empty (truthy) email matching an existing
persisted record, under `create_update_no_overwrite` and
`update_no_overwrite` the engine merge-fills: exactly the fields that are
present and truthy in the incoming record and falsy on the existing record
are set on the existing record; an empty change set yields Skipped with no
store write, a non-empty one yields Updated. -/
theorem merge_fill_correct (store : List Record) (importMode : String)
    (company ex : Record) (e : Value)
    (hm : importMode = "create_update_no_overwrite" ∨
      importMode = "update_no_overwrite")
    (hwf : WFRecord company)
    (he : getF company "email" = some e) (ht : truthy e = true)
    (hex : findOne store e = some ex) :
    (mergeFill ex company = [] →
      reconcile store importMode company = .lookupSkip ∧
      outcomeOf (reconcile store importMode company) = some .skipped ∧
      applyDecision store (reconcile store importMode company) = store) ∧
    (mergeFill ex company ≠ [] →
      reconcile store importMode company = .update e (mergeFill ex company) ∧
      outcomeOf (reconcile store importMode company) = some .updated ∧
      ∃ ex', findOne (applyDecision store (reconcile store importMode company)) e =
          some ex' ∧
        ∀ k, getF ex' k =
          if truthyO (getF company k) && !truthyO (getF ex k) then getF company k
          else getF ex k) := by
  have hrec : reconcile store importMode company =
      (if (mergeFill ex company).length > 0 then
        Decision.update e (mergeFill ex company)
      else .lookupSkip) := by
    rcases hm with hm | hm <;> subst hm <;>
      simp [reconcile, he, ht, reconcileMode, hex]
  constructor
  · intro h0
    rw [hrec, h0]
    exact ⟨rfl, rfl, rfl⟩
  · intro h0
    have hlen : (mergeFill ex company).length > 0 := List.length_pos.mpr h0
    rw [hrec, if_pos hlen]
    refine ⟨rfl, rfl, setFields ex (mergeFill ex company), ?_, ?_⟩
    · have hexe : getF ex "email" = some e := findOne_email store e ex hex
      have hmnone : getF (mergeFill ex company) "email" = none := by
        rw [getF_mergeFill _ _ _ hwf, he, hexe]
        simp [truthyO, ht]
      have hemail : getF (setFields ex (mergeFill ex company)) "email" = some e := by
        rw [getF_setFields_not_mem _ _ _ ((getF_eq_none_iff _ _).mp hmnone), hexe]
      simpa [applyDecision] using
        findOne_updateFirst store e (fun r => setFields r (mergeFill ex company))
          ex hex hemail
    · intro k
      exact getF_setFields_mergeFill ex company k hwf

/-- Witness for C1 at Scenario B: existing record with empty name and truthy
industry, incoming record providing both; the outcome is Updated. -/
theorem merge_fill_correct_witness :
    outcomeOf (reconcile [exRecord] "create_update_no_overwrite" incRecord) =
      some Outcome.updated :=
  ((merge_fill_correct [exRecord] "create_update_no_overwrite" incRecord exRecord
      (Value.str "a@x.com") (Or.inl rfl) (by decide) rfl rfl rfl).2 (by decide)).2.1

/-- C2: for a record with a non-empty (truthy) email matching an existing
persisted record, under `create_update_overwrite` and `update_overwrite` the
engine overwrites: every field provided in the incoming record is set onto
the existing record, so each provided field exactly equals the stored value
afterwards, and the outcome is Updated. -/
theorem full_overwrite_correct (store : List Record) (importMode : String)
    (company ex : Record) (e : Value)
    (hm : importMode = "create_update_overwrite" ∨
      importMode = "update_overwrite")
    (hwf : WFRecord company)
    (he : getF company "email" = some e) (ht : truthy e = true)
    (hex : findOne store e = some ex) :
    reconcile store importMode company = .update e company ∧
    outcomeOf (reconcile store importMode company) = some .updated ∧
    ∃ ex', findOne (applyDecision store (reconcile store importMode company)) e =
        some ex' ∧
      ∀ k v, getF company k = some v → getF ex' k = some v := by
  have hrec : reconcile store importMode company = .update e company := by
    rcases hm with hm | hm <;> subst hm <;>
      simp [reconcile, he, ht, reconcileMode, hex]
  rw [hrec]
  refine ⟨rfl, rfl, setFields ex company, ?_, ?_⟩
  · have hemail : getF (setFields ex company) "email" = some e :=
      getF_setFields_some _ _ _ _ hwf he
    simpa [applyDecision] using
      findOne_updateFirst store e (fun r => setFields r company) ex hex hemail
  · intro k v hk
    exact getF_setFields_some _ _ _ _ hwf hk

/-- Witness for C2 at Scenario C: overwrite updates the matched record. -/
theorem full_overwrite_correct_witness :
    outcomeOf (reconcile [exRecord] "update_overwrite" incRecord) =
      some Outcome.updated :=
  (full_overwrite_correct [exRecord] "update_overwrite" incRecord exRecord
      (Value.str "a@x.com") (Or.inr rfl) (by decide) rfl rfl rfl).2.1

/-- C3: for a record with a non-empty (truthy) email and no existing match,
the three `create_*` modes insert it (Inserted) and the two `update_*` modes
skip it with no mutation; with an existing match, `create_new` skips with no
mutation. -/
theorem mode_dispatch_correct (store : List Record) (importMode : String)
    (company : Record) (e : Value)
    (he : getF company "email" = some e) (ht : truthy e = true) :
    (findOne store e = none →
      ((importMode = "create_new" ∨ importMode = "create_update_no_overwrite" ∨
          importMode = "create_update_overwrite") →
        reconcile store importMode company = .insert company ∧
        outcomeOf (reconcile store importMode company) = some .inserted ∧
        applyDecision store (reconcile store importMode company) =
          store ++ [company]) ∧
      ((importMode = "update_no_overwrite" ∨ importMode = "update_overwrite") →
        reconcile store importMode company = .lookupSkip ∧
        outcomeOf (reconcile store importMode company) = some .skipped ∧
        applyDecision store (reconcile store importMode company) = store)) ∧
    (importMode = "create_new" → ∀ ex, findOne store e = some ex →
      reconcile store importMode company = .lookupSkip ∧
      outcomeOf (reconcile store importMode company) = some .skipped ∧
      applyDecision store (reconcile store importMode company) = store) := by
  refine ⟨fun hnone => ⟨fun hm => ?_, fun hm => ?_⟩, fun hm ex hex => ?_⟩
  · rcases hm with hm | hm | hm <;> subst hm <;>
      simp [reconcile, he, ht, reconcileMode, hnone, applyDecision, outcomeOf]
  · rcases hm with hm | hm <;> subst hm <;>
      simp [reconcile, he, ht, reconcileMode, hnone, applyDecision, outcomeOf]
  · subst hm
    simp [reconcile, he, ht, reconcileMode, hex, applyDecision, outcomeOf]

/-- Witness for C3 at Scenario A: `create_new` inserts into an empty store. -/
theorem mode_dispatch_correct_witness :
    reconcile [] "create_new" incRecord = Decision.insert incRecord :=
  (((mode_dispatch_correct [] "create_new" incRecord (Value.str "a@x.com")
      rfl rfl).1 rfl).1 (Or.inl rfl)).1

/-- C4: a record lacking a non-empty email is Skipped in every mode: no store
lookup happens (zero store operations), no mutation happens, and the record
is tallied as skipped. -/
theorem missing_email_skipped (store : List Record) (importMode : String)
    (company : Record) (he : truthyO (getF company "email") = false) :
    reconcile store importMode company = .noEmailSkip ∧
    outcomeOf (reconcile store importMode company) = some .skipped ∧
    storeOpsOf (reconcile store importMode company) = 0 ∧
    applyDecision store (reconcile store importMode company) = store ∧
    ∀ acc, tallyD acc (reconcile store importMode company) =
      { acc with skipped := acc.skipped + 1 } := by
  have hrec := reconcile_no_email store importMode company he
  rw [hrec]
  exact ⟨rfl, rfl, rfl, rfl, fun acc => rfl⟩

/-- Witness for C4 at Scenario D: a record with no email field is skipped. -/
theorem missing_email_skipped_witness :
    storeOpsOf (reconcile [exRecord] "update_overwrite" noEmailRecord) = 0 :=
  (missing_email_skipped [exRecord] "update_overwrite" noEmailRecord rfl).2.2.1

/-! ### Run-level lemmas -/

theorem importE_cons (failAt : Option Nat) (store : List Record) (c : Record)
    (rest : List Record) (importMode : String) (acc : Counters) (opc : Nat) :
    importE failAt store (c :: rest) importMode acc opc =
      match reconcile store importMode c with
      | .noEmailSkip =>
          importE failAt store rest importMode (tallyD acc .noEmailSkip) opc
      | .lookupSkip =>
          if failAt = some opc then (none, store, opc)
          else importE failAt store rest importMode (tallyD acc .lookupSkip) (opc + 1)
      | .unknownMode =>
          if failAt = some opc then (none, store, opc)
          else importE failAt store rest importMode acc (opc + 1)
      | .insert r =>
          if failAt = some opc then (none, store, opc)
          else if failAt = some (opc + 1) then (none, store, opc + 1)
          else importE failAt (store ++ [r]) rest importMode
            (tallyD acc (.insert r)) (opc + 2)
      | .update e u =>
          if failAt = some opc then (none, store, opc)
          else if failAt = some (opc + 1) then (none, store, opc + 1)
          else importE failAt (updateFirst store e fun r => setFields r u) rest
            importMode (tallyD acc (.update e u)) (opc + 2) := rfl

theorem importCompanies_snd (store companies : List Record)
    (importMode : String) :
    (importCompanies store companies importMode).2 =
      (importE none store companies importMode ⟨0, 0, 0⟩ 0).2.1 := by
  unfold importCompanies
  rcases heq : importE none store companies importMode ⟨0, 0, 0⟩ 0 with ⟨res, s, o⟩
  cases res <;> rfl

theorem reconcileMode_ne_unknown (m : Mode) (ex : Option Record) (c : Record)
    (e : Value) : reconcileMode (modeStr m) ex c e ≠ .unknownMode := by
  cases m <;> cases ex <;> simp [reconcileMode, modeStr] <;> split <;> simp

theorem reconcile_ne_unknown (m : Mode) (store : List Record) (c : Record) :
    reconcile store (modeStr m) c ≠ .unknownMode := by
  unfold reconcile
  cases hg : getF c "email" with
  | none => simp
  | some e =>
      by_cases ht : truthy e
      · simpa [ht] using reconcileMode_ne_unknown m (findOne store e) c e
      · simp [ht]

theorem tallyD_sum (acc : Counters) (d : Decision) (hd : d ≠ .unknownMode) :
    (tallyD acc d).inserted + (tallyD acc d).updated + (tallyD acc d).skipped =
      acc.inserted + acc.updated + acc.skipped + 1 := by
  cases d <;> simp [tallyD] at hd ⊢ <;> omega

theorem importE_none_sum (importMode : String)
    (hmode : ∀ (store : List Record) (c : Record),
      reconcile store importMode c ≠ .unknownMode) :
    ∀ (companies store : List Record) (acc : Counters) (opc : Nat),
      ∃ cnt s o,
        importE none store companies importMode acc opc = (some cnt, s, o) ∧
        cnt.inserted + cnt.updated + cnt.skipped =
          acc.inserted + acc.updated + acc.skipped + companies.length := by
  intro companies
  induction companies with
  | nil =>
      intro store acc opc
      exact ⟨acc, store, opc, rfl, by simp⟩
  | cons c rest ih =>
      intro store acc opc
      cases hd : reconcile store importMode c with
      | noEmailSkip =>
          obtain ⟨cnt, s, o, heq, hsum⟩ := ih store (tallyD acc .noEmailSkip) opc
          refine ⟨cnt, s, o, ?_, ?_⟩
          · simp [importE_cons, hd, heq]
          · rw [hsum, tallyD_sum acc _ (by simp)]
            simp [List.length_cons]
            omega
      | lookupSkip =>
          obtain ⟨cnt, s, o, heq, hsum⟩ := ih store (tallyD acc .lookupSkip) (opc + 1)
          refine ⟨cnt, s, o, ?_, ?_⟩
          · simp [importE_cons, hd, heq]
          · rw [hsum, tallyD_sum acc _ (by simp)]
            simp [List.length_cons]
            omega
      | insert r =>
          obtain ⟨cnt, s, o, heq, hsum⟩ :=
            ih (store ++ [r]) (tallyD acc (.insert r)) (opc + 2)
          refine ⟨cnt, s, o, ?_, ?_⟩
          · simp [importE_cons, hd, heq]
          · rw [hsum, tallyD_sum acc _ (by simp)]
            simp [List.length_cons]
            omega
      | update e u =>
          obtain ⟨cnt, s, o, heq, hsum⟩ :=
            ih (updateFirst store e fun r => setFields r u)
              (tallyD acc (.update e u)) (opc + 2)
          refine ⟨cnt, s, o, ?_, ?_⟩
          · simp [importE_cons, hd, heq]
          · rw [hsum, tallyD_sum acc _ (by simp)]
            simp [List.length_cons]
            omega
      | unknownMode => exact absurd hd (hmode store c)

/-- C6: counter conservation: for every run over any input sequence under any
of the five recognized import modes,
`inserted + updated + skipped = total input records`. -/
theorem counter_conservation (m : Mode) (store companies : List Record) :
    (importCompanies store companies (modeStr m)).1.inserted +
      (importCompanies store companies (modeStr m)).1.updated +
      (importCompanies store companies (modeStr m)).1.skipped =
      companies.length := by
  obtain ⟨cnt, s, o, heq, hsum⟩ :=
    importE_none_sum (modeStr m) (fun store c => reconcile_ne_unknown m store c)
      companies store ⟨0, 0, 0⟩ 0
  unfold importCompanies
  rw [heq]
  simpa using hsum

theorem reconcile_create_new_cases (store : List Record) (c : Record) :
    reconcile store "create_new" c = .noEmailSkip ∨
    reconcile store "create_new" c = .lookupSkip ∨
    reconcile store "create_new" c = .insert c := by
  unfold reconcile
  cases hg : getF c "email" with
  | none => simp
  | some e =>
      by_cases ht : truthy e
      · simp only [ht, if_true]
        cases findOne store e <;> simp [reconcileMode]
      · simp [ht]

theorem create_new_frame_aux :
    ∀ (companies store : List Record) (acc : Counters) (opc : Nat),
      ∃ tail,
        (importE none store companies "create_new" acc opc).2.1 = store ++ tail := by
  intro companies
  induction companies with
  | nil =>
      intro store acc opc
      exact ⟨[], by simp [importE]⟩
  | cons c rest ih =>
      intro store acc opc
      rcases reconcile_create_new_cases store c with hd | hd | hd
      · obtain ⟨tail, htail⟩ := ih store (tallyD acc .noEmailSkip) opc
        exact ⟨tail, by simp [importE_cons, hd, htail]⟩
      · obtain ⟨tail, htail⟩ := ih store (tallyD acc .lookupSkip) (opc + 1)
        exact ⟨tail, by simp [importE_cons, hd, htail]⟩
      · obtain ⟨tail, htail⟩ := ih (store ++ [c]) (tallyD acc (.insert c)) (opc + 2)
        refine ⟨[c] ++ tail, ?_⟩
        simp [importE_cons, hd, htail, List.append_assoc]

theorem reconcile_update_inv (store : List Record) (importMode : String)
    (c : Record) (e : Value) (u : List (String × Value))
    (h : reconcile store importMode c = .update e u) :
    getF c "email" = some e ∧ truthy e = true ∧
      ∃ ex, findOne store e = some ex ∧
        (u = mergeFill ex c ∧
          (importMode = "create_update_no_overwrite" ∨
           importMode = "update_no_overwrite") ∨
         u = c ∧
          (importMode = "create_update_overwrite" ∨
           importMode = "update_overwrite")) := by
  unfold reconcile at h
  split at h
  · exact absurd h (by simp)
  · rename_i e0 hg
    split at h
    · rename_i ht
      unfold reconcileMode at h
      split at h
      · split at h <;> exact absurd h (by simp)
      · split at h
        · exact absurd h (by simp)
        · rename_i ex hex
          simp only at h
          split at h
          · rename_i hl
            obtain ⟨he, hu⟩ := Decision.update.inj h
            subst he
            exact ⟨hg, ht, ex, hex, Or.inl ⟨hu.symm, Or.inl rfl⟩⟩
          · exact absurd h (by simp)
      · split at h
        · exact absurd h (by simp)
        · rename_i ex hex
          obtain ⟨he, hu⟩ := Decision.update.inj h
          subst he
          exact ⟨hg, ht, ex, hex, Or.inr ⟨hu.symm, Or.inl rfl⟩⟩
      · split at h
        · exact absurd h (by simp)
        · rename_i ex hex
          simp only at h
          split at h
          · rename_i hl
            obtain ⟨he, hu⟩ := Decision.update.inj h
            subst he
            exact ⟨hg, ht, ex, hex, Or.inl ⟨hu.symm, Or.inr rfl⟩⟩
          · exact absurd h (by simp)
      · split at h
        · exact absurd h (by simp)
        · rename_i ex hex
          obtain ⟨he, hu⟩ := Decision.update.inj h
          subst he
          exact ⟨hg, ht, ex, hex, Or.inr ⟨hu.symm, Or.inr rfl⟩⟩
      · exact absurd h (by simp)
    · exact absurd h (by simp)

theorem reconcile_insert_inv (store : List Record) (importMode : String)
    (c r : Record) (h : reconcile store importMode c = .insert r) :
    r = c ∧ ∃ e, getF c "email" = some e ∧ truthy e = true ∧
      findOne store e = none := by
  unfold reconcile at h
  split at h
  · exact absurd h (by simp)
  · rename_i e0 hg
    split at h
    · rename_i ht
      unfold reconcileMode at h
      split at h
      · split at h
        · rename_i hex
          exact ⟨(Decision.insert.inj h).symm, e0, hg, ht, hex⟩
        · exact absurd h (by simp)
      · split at h
        · rename_i hex
          exact ⟨(Decision.insert.inj h).symm, e0, hg, ht, hex⟩
        · rename_i ex hex
          simp only at h
          split at h <;> exact absurd h (by simp)
      · split at h
        · rename_i hex
          exact ⟨(Decision.insert.inj h).symm, e0, hg, ht, hex⟩
        · exact absurd h (by simp)
      · split at h
        · exact absurd h (by simp)
        · rename_i ex hex
          simp only at h
          split at h <;> exact absurd h (by simp)
      · split at h <;> exact absurd h (by simp)
      · exact absurd h (by simp)
    · exact absurd h (by simp)

theorem emailKey_some (r : Record) (e : Value) (h : emailKey r = some e) :
    getF r "email" = some e ∧ truthy e = true := by
  unfold emailKey at h
  split at h
  · rename_i v hg
    split at h
    · rename_i ht
      obtain rfl := Option.some.inj h
      exact ⟨hg, ht⟩
    · exact absurd h (by simp)
  · exact absurd h (by simp)

theorem emailUnique_applyDecision (store : List Record) (importMode : String)
    (c : Record) (hwf : WFRecord c) (hu : EmailUnique store) :
    EmailUnique (applyDecision store (reconcile store importMode c)) := by
  cases hd : reconcile store importMode c with
  | noEmailSkip => simpa [applyDecision] using hu
  | lookupSkip => simpa [applyDecision] using hu
  | unknownMode => simpa [applyDecision] using hu
  | insert r =>
      obtain ⟨hrc, e, hg, ht, hnone⟩ := reconcile_insert_inv store importMode c r hd
      show EmailUnique (store ++ [r])
      rw [hrc]
      unfold EmailUnique emailsOf at hu ⊢
      rw [List.filterMap_append]
      have hkey : List.filterMap emailKey [c] = [e] := by
        simp [emailKey_of_email c e hg ht]
      rw [hkey, List.nodup_append]
      refine ⟨hu, List.nodup_singleton e, ?_⟩
      intro a ha hb
      rw [List.mem_singleton] at hb
      subst hb
      rw [List.mem_filterMap] at ha
      obtain ⟨r', hr', hkey'⟩ := ha
      exact (findOne_eq_none_iff store a).mp hnone r' hr' (emailKey_some r' a hkey').1
  | update e u =>
      obtain ⟨hg, ht, ex, hex, hcase⟩ := reconcile_update_inv store importMode c e u hd
      show EmailUnique (updateFirst store e fun r => setFields r u)
      unfold EmailUnique
      have hf : ∀ r, getF r "email" = some e →
          emailKey (setFields r u) = emailKey r := by
        intro r hr
        rcases hcase with ⟨hu1, _⟩ | ⟨hu1, _⟩
        · rw [hu1]
          have hkeys : "email" ∉ (mergeFill ex c).map Prod.fst := by
            intro hmem
            have hfalse := mem_keys_mergeFill ex c "email" hmem
            rw [findOne_email store e ex hex] at hfalse
            simp [truthyO, ht] at hfalse
          unfold emailKey
          rw [getF_setFields_not_mem _ _ _ hkeys]
        · rw [hu1]
          have h1 : getF (setFields r c) "email" = some e :=
            getF_setFields_some _ _ _ _ hwf hg
          unfold emailKey
          rw [h1, hr]
      rw [emailsOf_updateFirst store e _ hf]
      exact hu

theorem importE_none_emailUnique :
    ∀ (companies store : List Record) (importMode : String) (acc : Counters)
      (opc : Nat), (∀ c ∈ companies, WFRecord c) → EmailUnique store →
      EmailUnique (importE none store companies importMode acc opc).2.1 := by
  intro companies
  induction companies with
  | nil =>
      intro store importMode acc opc _ hu
      simpa [importE] using hu
  | cons c rest ih =>
      intro store importMode acc opc hwf hu
      have hstep := emailUnique_applyDecision store importMode c
        (hwf c (by simp)) hu
      have hwfrest : ∀ c' ∈ rest, WFRecord c' := fun c' hc' => hwf c' (by simp [hc'])
      cases hd : reconcile store importMode c with
      | noEmailSkip =>
          rw [hd] at hstep
          have := ih store importMode (tallyD acc .noEmailSkip) opc hwfrest
            (by simpa [applyDecision] using hstep)
          simpa [importE_cons, hd] using this
      | lookupSkip =>
          rw [hd] at hstep
          have := ih store importMode (tallyD acc .lookupSkip) (opc + 1) hwfrest
            (by simpa [applyDecision] using hstep)
          simpa [importE_cons, hd] using this
      | unknownMode =>
          rw [hd] at hstep
          have := ih store importMode acc (opc + 1) hwfrest
            (by simpa [applyDecision] using hstep)
          simpa [importE_cons, hd] using this
      | insert r =>
          rw [hd] at hstep
          have := ih (store ++ [r]) importMode (tallyD acc (.insert r)) (opc + 2)
            hwfrest (by simpa [applyDecision] using hstep)
          simpa [importE_cons, hd] using this
      | update e u =>
          rw [hd] at hstep
          have := ih (updateFirst store e fun r => setFields r u) importMode
            (tallyD acc (.update e u)) (opc + 2) hwfrest
            (by simpa [applyDecision] using hstep)
          simpa [importE_cons, hd] using this

theorem emailUnique_delete (store : List Record) (email : String)
    (hu : EmailUnique store) : EmailUnique (deleteByEmail store email).2 := by
  unfold deleteByEmail
  cases hf : findOne store (.str email) with
  | none => simpa using hu
  | some r =>
      show EmailUnique (deleteFirst store (.str email))
      exact hu.sublist ((deleteFirst_sublist store _).filterMap emailKey)

/-- C7: after any sequence of import runs, deletes and list reads starting
from a store satisfying the identity invariant, no two persisted records
share a non-empty email value (imported records being well-formed JavaScript
objects, i.e. without duplicate keys). -/
theorem email_uniqueness_invariant (store : List Record) (ops : List Op)
    (h0 : EmailUnique store) (hwf : ∀ op ∈ ops, WFOp op) :
    EmailUnique (applyOps store ops) := by
  induction ops generalizing store with
  | nil => simpa [applyOps] using h0
  | cons op rest ih =>
      have h1 : EmailUnique (applyOp store op) := by
        cases op with
        | importOp companies importMode =>
            have hop : WFOp (Op.importOp companies importMode) := hwf _ (by simp)
            have := importE_none_emailUnique companies store importMode
              ⟨0, 0, 0⟩ 0 hop h0
            simpa [applyOp, importCompanies_snd] using this
        | deleteOp email => simpa [applyOp] using emailUnique_delete store email h0
        | listOp => simpa [applyOp] using h0
      have := ih (applyOp store op) h1 (fun o ho => hwf o (by simp [ho]))
      simpa [applyOps, List.foldl_cons] using this

/-- Witness for C7: an import inserting two records followed by a delete and
a list read keeps emails unique. -/
theorem email_uniqueness_invariant_witness :
    EmailUnique (applyOps [exRecord]
      [Op.importOp [incRecord, incRecordB] "create_new", Op.deleteOp "a@x.com",
        Op.listOp]) :=
  email_uniqueness_invariant [exRecord] _ (by decide) (by
    intro op hop
    fin_cases hop
    · intro c hc
      fin_cases hc <;> decide
    · exact trivial
    · exact trivial)

/-- C5 counterexample: a supplied mode that is not one of the five recognized
variants is not rejected: the endpoint answers success (with zero counters
and no store mutation) instead of failing with an error. -/
theorem unrecognized_mode_not_rejected :
    isError (handleImport []
      { file := some [incRecord], importMode := some "bogus" }).1 = false ∧
    handleImport [] { file := some [incRecord], importMode := some "bogus" } =
      (.success 0 0 0, []) := by
  constructor <;> rfl

/-- C5 (amended): the import endpoint fails with a descriptive error,
performing no import processing, when the file is absent or the supplied
mode is absent or empty (falsy); an unrecognized non-empty mode is not
rejected. -/
theorem import_validation_correct (store : List Record) (req : ImportRequest) :
    (req.file = none →
      handleImport store req = (.error "No file uploaded", store)) ∧
    (req.importMode = none ∨ req.importMode = some "" → req.file ≠ none →
      handleImport store req = (.error "Import mode is required", store)) := by
  obtain ⟨file, mode⟩ := req
  constructor
  · intro h
    subst h
    rfl
  · intro hmode hfile
    cases file with
    | none => exact absurd rfl hfile
    | some companies => rcases hmode with h | h <;> subst h <;> rfl

/-- Witness for C5 (amended): a request with no file is rejected. -/
theorem import_validation_correct_witness :
    handleImport [exRecord] { file := none, importMode := some "create_new" } =
      (.error "No file uploaded", [exRecord]) :=
  (import_validation_correct [exRecord]
    { file := none, importMode := some "create_new" }).1 rfl

theorem no_overwrite_step_preserves (store : List Record) (importMode : String)
    (c : Record) (i : Nat) (r : Record) (k : String)
    (hm : importMode = "create_update_no_overwrite" ∨
      importMode = "update_no_overwrite")
    (hi : store[i]? = some r) (ht : truthyO (getF r k) = true) :
    ∃ r', (applyDecision store (reconcile store importMode c))[i]? = some r' ∧
      getF r' k = getF r k := by
  cases hd : reconcile store importMode c with
  | noEmailSkip => exact ⟨r, by simpa [applyDecision] using hi, rfl⟩
  | lookupSkip => exact ⟨r, by simpa [applyDecision] using hi, rfl⟩
  | unknownMode => exact ⟨r, by simpa [applyDecision] using hi, rfl⟩
  | insert c' =>
      refine ⟨r, ?_, rfl⟩
      have hlen : i < store.length := (List.getElem?_eq_some.mp hi).1
      show (store ++ [c'])[i]? = some r
      rw [List.getElem?_append_left hlen]
      exact hi
  | update e u =>
      obtain ⟨hg, hte, ex, hex, hcase⟩ :=
        reconcile_update_inv store importMode c e u hd
      have hu1 : u = mergeFill ex c := by
        rcases hcase with ⟨hu1, _⟩ | ⟨hu1, hov⟩
        · exact hu1
        · rcases hm with rfl | rfl <;> rcases hov with hov | hov <;> simp at hov
      subst hu1
      rcases updateFirst_getElem store e (fun r0 => setFields r0 (mergeFill ex c))
          i with hsame | ⟨r0, hr0, hfind, hnew⟩
      · refine ⟨r, ?_, rfl⟩
        show (updateFirst store e fun r0 => setFields r0 (mergeFill ex c))[i]? =
          some r
        rw [hsame]
        exact hi
      · rw [hi] at hr0
        obtain rfl := Option.some.inj hr0
        rw [hex] at hfind
        obtain rfl := Option.some.inj hfind
        refine ⟨setFields ex (mergeFill ex c),
          by simpa [applyDecision] using hnew, ?_⟩
        have hkeys : k ∉ (mergeFill ex c).map Prod.fst := by
          intro hmem
          have hfalse := mem_keys_mergeFill ex c k hmem
          rw [ht] at hfalse
          exact absurd hfalse (by simp)
        exact getF_setFields_not_mem _ _ _ hkeys

theorem no_overwrite_run_preserves (importMode : String)
    (hm : importMode = "create_update_no_overwrite" ∨
      importMode = "update_no_overwrite") :
    ∀ (companies store : List Record) (acc : Counters) (opc : Nat) (i : Nat)
      (r : Record) (k : String), store[i]? = some r →
      truthyO (getF r k) = true →
      ∃ r', (importE none store companies importMode acc opc).2.1[i]? = some r' ∧
        getF r' k = getF r k := by
  intro companies
  induction companies with
  | nil =>
      intro store acc opc i r k hi ht
      exact ⟨r, by simpa [importE] using hi, rfl⟩
  | cons c rest ih =>
      intro store acc opc i r k hi ht
      obtain ⟨r1, hr1, hk1⟩ :=
        no_overwrite_step_preserves store importMode c i r k hm hi ht
      have ht1 : truthyO (getF r1 k) = true := by rw [hk1]; exact ht
      cases hd : reconcile store importMode c with
      | noEmailSkip =>
          rw [hd] at hr1
          obtain ⟨r', hr', hk'⟩ := ih store (tallyD acc .noEmailSkip) opc i r1 k
            (by simpa [applyDecision] using hr1) ht1
          exact ⟨r', by simpa [importE_cons, hd] using hr', hk'.trans hk1⟩
      | lookupSkip =>
          rw [hd] at hr1
          obtain ⟨r', hr', hk'⟩ := ih store (tallyD acc .lookupSkip) (opc + 1) i
            r1 k (by simpa [applyDecision] using hr1) ht1
          exact ⟨r', by simpa [importE_cons, hd] using hr', hk'.trans hk1⟩
      | unknownMode =>
          rw [hd] at hr1
          obtain ⟨r', hr', hk'⟩ := ih store acc (opc + 1) i r1 k
            (by simpa [applyDecision] using hr1) ht1
          exact ⟨r', by simpa [importE_cons, hd] using hr', hk'.trans hk1⟩
      | insert c' =>
          rw [hd] at hr1
          obtain ⟨r', hr', hk'⟩ := ih (store ++ [c']) (tallyD acc (.insert c'))
            (opc + 2) i r1 k (by simpa [applyDecision] using hr1) ht1
          exact ⟨r', by simpa [importE_cons, hd] using hr', hk'.trans hk1⟩
      | update e u =>
          rw [hd] at hr1
          obtain ⟨r', hr', hk'⟩ :=
            ih (updateFirst store e fun r0 => setFields r0 u)
              (tallyD acc (.update e u)) (opc + 2) i r1 k
              (by simpa [applyDecision] using hr1) ht1
          exact ⟨r', by simpa [importE_cons, hd] using hr', hk'.trans hk1⟩

/-- C8: under the `*_no_overwrite` modes, a field holding a truthy value on a
persisted record before an import run holds the same value after the run,
whatever the incoming records contain. -/
theorem merge_fill_monotone (store companies : List Record)
    (importMode : String) (i : Nat) (r : Record) (k : String)
    (hm : importMode = "create_update_no_overwrite" ∨
      importMode = "update_no_overwrite")
    (hi : store[i]? = some r) (ht : truthyO (getF r k) = true) :
    ∃ r', (importCompanies store companies importMode).2[i]? = some r' ∧
      getF r' k = getF r k := by
  obtain ⟨r', hr', hk'⟩ := no_overwrite_run_preserves importMode hm companies
    store ⟨0, 0, 0⟩ 0 i r k hi ht
  exact ⟨r', by rwa [importCompanies_snd], hk'⟩

/-- Witness for C8 at Scenario B: the truthy `industry` field of the existing
record survives a `create_update_no_overwrite` import unchanged. -/
theorem merge_fill_monotone_witness :
    ∃ r', (importCompanies [exRecord] [incRecord]
      "create_update_no_overwrite").2[0]? = some r' ∧
      getF r' "industry" = getF exRecord "industry" :=
  merge_fill_monotone [exRecord] [incRecord] "create_update_no_overwrite" 0
    exRecord "industry" (Or.inl rfl) rfl rfl

theorem importE_abort_take (importMode : String) (failAt : Nat) :
    ∀ (companies store : List Record) (acc : Counters) (opc : Nat)
      (res : Option Counters) (s' : List Record) (o' : Nat),
      importE (some failAt) store companies importMode acc opc = (res, s', o') →
      res = none →
      ∃ k ≤ companies.length,
        s' = (importE none store (companies.take k) importMode acc opc).2.1 := by
  intro companies
  induction companies with
  | nil =>
      intro store acc opc res s' o' heq hres
      subst hres
      simp [importE] at heq
  | cons c rest ih =>
      intro store acc opc res s' o' heq hres
      subst hres
      cases hd : reconcile store importMode c with
      | noEmailSkip =>
          simp only [importE_cons, hd] at heq
          obtain ⟨k, hk, hs⟩ := ih store (tallyD acc .noEmailSkip) opc none s' o'
            heq rfl
          refine ⟨k + 1, Nat.succ_le_succ hk, ?_⟩
          rw [List.take_succ_cons]
          simpa [importE_cons, hd] using hs
      | lookupSkip =>
          by_cases hf : failAt = opc
          · subst hf
            simp only [importE_cons, hd, if_pos rfl] at heq
            obtain ⟨hs, _⟩ := Prod.mk.inj (Prod.mk.inj heq).2
            exact ⟨0, Nat.zero_le _, by simp [importE, hs]⟩
          · simp only [importE_cons, hd,
              if_neg (fun he => hf (Option.some.inj he))] at heq
            obtain ⟨k, hk, hs⟩ := ih store (tallyD acc .lookupSkip) (opc + 1)
              none s' o' heq rfl
            refine ⟨k + 1, Nat.succ_le_succ hk, ?_⟩
            rw [List.take_succ_cons]
            simpa [importE_cons, hd] using hs
      | unknownMode =>
          by_cases hf : failAt = opc
          · subst hf
            simp only [importE_cons, hd, if_pos rfl] at heq
            obtain ⟨hs, _⟩ := Prod.mk.inj (Prod.mk.inj heq).2
            exact ⟨0, Nat.zero_le _, by simp [importE, hs]⟩
          · simp only [importE_cons, hd,
              if_neg (fun he => hf (Option.some.inj he))] at heq
            obtain ⟨k, hk, hs⟩ := ih store acc (opc + 1) none s' o' heq rfl
            refine ⟨k + 1, Nat.succ_le_succ hk, ?_⟩
            rw [List.take_succ_cons]
            simpa [importE_cons, hd] using hs
      | insert r =>
          by_cases hf1 : failAt = opc
          · subst hf1
            simp only [importE_cons, hd, if_pos rfl] at heq
            obtain ⟨hs, _⟩ := Prod.mk.inj (Prod.mk.inj heq).2
            exact ⟨0, Nat.zero_le _, by simp [importE, hs]⟩
          · by_cases hf2 : failAt = opc + 1
            · subst hf2
              simp only [importE_cons, hd,
                if_neg (fun he => hf1 (Option.some.inj he)), if_pos rfl] at heq
              obtain ⟨hs, _⟩ := Prod.mk.inj (Prod.mk.inj heq).2
              exact ⟨0, Nat.zero_le _, by simp [importE, hs]⟩
            · simp only [importE_cons, hd,
                if_neg (fun he => hf1 (Option.some.inj he)),
                if_neg (fun he => hf2 (Option.some.inj he))] at heq
              obtain ⟨k, hk, hs⟩ := ih (store ++ [r]) (tallyD acc (.insert r))
                (opc + 2) none s' o' heq rfl
              refine ⟨k + 1, Nat.succ_le_succ hk, ?_⟩
              rw [List.take_succ_cons]
              simpa [importE_cons, hd] using hs
      | update e u =>
          by_cases hf1 : failAt = opc
          · subst hf1
            simp only [importE_cons, hd, if_pos rfl] at heq
            obtain ⟨hs, _⟩ := Prod.mk.inj (Prod.mk.inj heq).2
            exact ⟨0, Nat.zero_le _, by simp [importE, hs]⟩
          · by_cases hf2 : failAt = opc + 1
            · subst hf2
              simp only [importE_cons, hd,
                if_neg (fun he => hf1 (Option.some.inj he)), if_pos rfl] at heq
              obtain ⟨hs, _⟩ := Prod.mk.inj (Prod.mk.inj heq).2
              exact ⟨0, Nat.zero_le _, by simp [importE, hs]⟩
            · simp only [importE_cons, hd,
                if_neg (fun he => hf1 (Option.some.inj he)),
                if_neg (fun he => hf2 (Option.some.inj he))] at heq
              obtain ⟨k, hk, hs⟩ :=
                ih (updateFirst store e fun r0 => setFields r0 u)
                  (tallyD acc (.update e u)) (opc + 2) none s' o' heq rfl
              refine ⟨k + 1, Nat.succ_le_succ hk, ?_⟩
              rw [List.take_succ_cons]
              simpa [importE_cons, hd] using hs

theorem importE_fail_of_lt (importMode : String) (failAt : Nat) :
    ∀ (companies store : List Record) (acc : Counters) (opc : Nat),
      opc ≤ failAt →
      failAt < (importE none store companies importMode acc opc).2.2 →
      (importE (some failAt) store companies importMode acc opc).1 = none := by
  intro companies
  induction companies with
  | nil =>
      intro store acc opc h1 h2
      simp [importE] at h2
      omega
  | cons c rest ih =>
      intro store acc opc h1 h2
      cases hd : reconcile store importMode c with
      | noEmailSkip =>
          simp only [importE_cons, hd] at h2 ⊢
          exact ih store _ opc h1 h2
      | lookupSkip =>
          simp [importE_cons, hd] at h2 ⊢
          by_cases hf : failAt = opc
          · rw [if_pos hf]
          · rw [if_neg hf]
            exact ih store _ (opc + 1) (by omega) h2
      | unknownMode =>
          simp [importE_cons, hd] at h2 ⊢
          by_cases hf : failAt = opc
          · rw [if_pos hf]
          · rw [if_neg hf]
            exact ih store _ (opc + 1) (by omega) h2
      | insert r =>
          simp [importE_cons, hd] at h2 ⊢
          by_cases hf1 : failAt = opc
          · rw [if_pos hf1]
          · by_cases hf2 : failAt = opc + 1
            · rw [if_neg hf1, if_pos hf2]
            · rw [if_neg hf1, if_neg hf2]
              exact ih (store ++ [r]) _ (opc + 2) (by omega) h2
      | update e u =>
          simp [importE_cons, hd] at h2 ⊢
          by_cases hf1 : failAt = opc
          · rw [if_pos hf1]
          · by_cases hf2 : failAt = opc + 1
            · rw [if_neg hf1, if_pos hf2]
            · rw [if_neg hf1, if_neg hf2]
              exact ih (updateFirst store e fun r0 => setFields r0 u) _
                (opc + 2) (by omega) h2

/-- C9: if the store operation numbered `failAt` rejects during an import
run, then (1) whenever the run ends in a store error, the final store is
exactly the fault-free run's store on some prefix of the input — mutations
committed for earlier records are retained, no later record is processed,
and there is no rollback — and (2) a fault within the run's operation range
does abort the run with the error surfaced as the run's result. -/
theorem store_error_aborts (failAt : Nat) (store companies : List Record)
    (importMode : String) (acc : Counters) (opc : Nat) :
    (∀ res s' o',
      importE (some failAt) store companies importMode acc opc = (res, s', o') →
      res = none →
      ∃ k ≤ companies.length,
        s' = (importE none store (companies.take k) importMode acc opc).2.1) ∧
    (opc ≤ failAt →
      failAt < (importE none store companies importMode acc opc).2.2 →
      (importE (some failAt) store companies importMode acc opc).1 = none) :=
  ⟨fun res s' o' heq hres =>
    importE_abort_take importMode failAt companies store acc opc res s' o'
      heq hres,
   fun h1 h2 => importE_fail_of_lt importMode failAt companies store acc opc
     h1 h2⟩

/-- Witness for C9: with the third store operation failing, a two-record
`create_new` run aborts after committing only the first record's insert. -/
theorem store_error_aborts_witness :
    (∃ k ≤ 2, ([incRecord] : List Record) =
      (importE none [] (List.take k [incRecord, incRecordB]) "create_new"
        ⟨0, 0, 0⟩ 0).2.1) ∧
    (importE (some 2) [] [incRecord, incRecordB] "create_new" ⟨0, 0, 0⟩ 0).1 =
      none :=
  ⟨(store_error_aborts 2 [] [incRecord, incRecordB] "create_new" ⟨0, 0, 0⟩ 0).1
      none [incRecord] 2 (by decide) rfl,
   (store_error_aborts 2 [] [incRecord, incRecordB] "create_new" ⟨0, 0, 0⟩ 0).2
      (by decide) (by decide)⟩

/-- C10: an import run in mode `create_new` never touches records persisted
before the run: the final store is the initial store with some new records
appended, so every previously persisted record is unchanged. -/
theorem create_new_frame (store companies : List Record) :
    ∃ tail, (importCompanies store companies "create_new").2 = store ++ tail := by
  obtain ⟨tail, htail⟩ := create_new_frame_aux companies store ⟨0, 0, 0⟩ 0
  exact ⟨tail, by rw [importCompanies_snd, htail]⟩

end TaskBackend
